import Mathlib

/-
  Verification of the recursive removal / recursive directory creation
  algorithms of the file-producer repository.

  The embedding models the FTP backend's algorithm (src/remote/ftp/ftp.go);
  the SFTP variant (src/unnamed/part_001) shares the same loop structure.

  Paths are modelled as lists of name segments: the Go code only ever forms
  child paths by appending "/" + name to an existing path, so the string
  path `p + "/" + n` is rendered as `p ++ [n]`, and the empty path "" as `[]`.

  The backend state is a finite list of nodes (path plus an is-directory
  flag), together with failure oracles for the two removal primitives
  (`failSpec` for DELE / removeFile, `dirFailSpec` for RMD beyond the
  protocol-level "directory not empty" failure), per-path attempt counters
  feeding those oracles, and a log of every primitive invocation (used to
  state the "performs no backend calls" / call-order claims).

  The unbounded `for` loops of RemoveAllRecursive are embedded with a fuel
  parameter: a result of `none` means the computation did not finish within
  the given fuel, and `some (e, fs)` means the function returned the
  (classified) error `e` — `none` standing for Go's nil error — leaving the
  backend in state `fs`.
-/

namespace FileProducer

abbrev Path := List String

/-- The remainder of `q` after the prefix `p`: `restOf p q = some r` iff `q = p ++ r`. -/
def restOf : Path → Path → Option Path
  | [], q => some q
  | _ :: _, [] => none
  | a :: as, b :: bs => if a = b then restOf as bs else none

/-- `isPre p q` holds iff `p` is an initial segment of `q` (so `q` lies at or below `p`). -/
def isPre (p q : Path) : Bool := (restOf p q).isSome

/-- A backend primitive invocation, recorded in the call log. -/
inductive Op where
  | stat (p : Path)
  | readDir (p : Path)
  | deleteFile (p : Path)
  | deleteDir (p : Path)
  | makeDir (p : Path)
deriving DecidableEq

/-- Raw (protocol-level) failure of a single-entry backend primitive. -/
inductive DirRaw where
  | noEnt     -- the path does not exist
  | notEmpty  -- the directory still has children
  | other     -- any other backend failure
deriving DecidableEq

/-- Classified errors as produced by RemoveAny (ftp.go:191):
    `notExist` wraps fs.ErrNotExist, `notEmpty` is the Permission-class error
    tagged "Directory is not empty", `invalid` is the Invalid-class error
    from a failed file removal, and `backend` stands for a raw backend error
    returned verbatim (e.g. a failed listing). -/
inductive Err where
  | notExist
  | notEmpty
  | invalid
  | backend
deriving DecidableEq

/-- Backend state: the node set, the removal-failure oracles with their
    per-path attempt counters, and the log of primitive invocations. -/
structure FS where
  nodes : List (Path × Bool)
  failSpec : Path → Nat → Bool
  dirFailSpec : Path → Nat → Bool
  triedF : Path → Nat
  triedD : Path → Nat
  log : List Op

def lookupNode : List (Path × Bool) → Path → Option Bool
  | [], _ => none
  | (q, b) :: rest, p => if q = p then some b else lookupNode rest p

/-- The name `n` when `q = p ++ [n]`, otherwise nothing. -/
def childName (p q : Path) : Option String :=
  match restOf p q with
  | some [n] => some n
  | _ => none

/-- Names of the immediate children of `p` in the node set. -/
def childNamesOf (ns : List (Path × Bool)) (p : Path) : List String :=
  ns.filterMap (fun e => childName p e.1)

def eraseNodeList (ns : List (Path × Bool)) (p : Path) : List (Path × Bool) :=
  ns.filter (fun e => decide (e.1 ≠ p))

/-- Delete every node at or below `root`. -/
def eraseUnderList (ns : List (Path × Bool)) (root : Path) : List (Path × Bool) :=
  ns.filter (fun e => !(isPre root e.1))

def pushLog (fs : FS) (o : Op) : FS := { fs with log := fs.log ++ [o] }

/-- stat primitive: reports whether the path exists and is a directory. -/
def statP (fs : FS) (p : Path) : Option Bool × FS :=
  (lookupNode fs.nodes p, pushLog fs (Op.stat p))

/-- listDirectory primitive: fails with noEnt if absent, errors on a plain
    file, otherwise returns the names of the immediate children. -/
def readDirP (fs : FS) (p : Path) : Except DirRaw (List String) × FS :=
  let fs' := pushLog fs (Op.readDir p)
  match lookupNode fs.nodes p with
  | none => (Except.error DirRaw.noEnt, fs')
  | some false => (Except.error DirRaw.other, fs')
  | some true => (Except.ok (childNamesOf fs.nodes p), fs')

/-- removeFile primitive: fails on a missing path or a directory, and also
    whenever the failure oracle fires for the current attempt number. -/
def deleteFileP (fs : FS) (p : Path) : Option DirRaw × FS :=
  let t := fs.triedF p
  let fs' : FS :=
    { fs with triedF := fun q => if q = p then t + 1 else fs.triedF q,
              log := fs.log ++ [Op.deleteFile p] }
  match lookupNode fs.nodes p with
  | none => (some DirRaw.noEnt, fs')
  | some true => (some DirRaw.other, fs')
  | some false =>
      if fs.failSpec p t then (some DirRaw.other, fs')
      else (none, { fs' with nodes := eraseNodeList fs.nodes p })

/-- removeEmptyDirectory primitive: fails on a missing path, a plain file,
    a directory that still has children, or when the oracle fires. -/
def deleteDirP (fs : FS) (p : Path) : Option DirRaw × FS :=
  let t := fs.triedD p
  let fs' : FS :=
    { fs with triedD := fun q => if q = p then t + 1 else fs.triedD q,
              log := fs.log ++ [Op.deleteDir p] }
  match lookupNode fs.nodes p with
  | none => (some DirRaw.noEnt, fs')
  | some false => (some DirRaw.other, fs')
  | some true =>
      if childNamesOf fs.nodes p ≠ [] then (some DirRaw.notEmpty, fs')
      else if fs.dirFailSpec p t then (some DirRaw.other, fs')
      else (none, { fs' with nodes := eraseNodeList fs.nodes p })

/-- makeOneDirectory primitive (ftp MakeDir): creates exactly one directory
    level; fails if the path already exists or its parent is missing. -/
def makeDirP (fs : FS) (p : Path) : Option DirRaw × FS :=
  let fs' := pushLog fs (Op.makeDir p)
  match lookupNode fs.nodes p with
  | some _ => (some DirRaw.other, fs')
  | none =>
    if p = [] then (some DirRaw.other, fs')
    else if p.dropLast = [] ∨ lookupNode fs.nodes p.dropLast = some true then
      (none, { fs' with nodes := fs.nodes ++ [(p, true)] })
    else (some DirRaw.other, fs')

/-- RemoveAny (ftp.go:191): stat the path (any stat failure is wrapped as a
    NotExist-class error); delete a directory with DeleteDir, wrapping any
    failure as the Permission-class error tagged "Directory is not empty";
    delete a file with DeleteFile, wrapping any failure as Invalid-class. -/
def removeAny (fs : FS) (p : Path) : Option Err × FS :=
  match statP fs p with
  | (none, fs1) => (some Err.notExist, fs1)
  | (some true, fs1) =>
    match deleteDirP fs1 p with
    | (none, fs2) => (none, fs2)
    | (some _, fs2) => (some Err.notEmpty, fs2)
  | (some false, fs1) =>
    match deleteFileP fs1 p with
    | (none, fs2) => (none, fs2)
    | (some _, fs2) => (some Err.invalid, fs2)

/-- The trailing removal of the directory itself (ftp.go:293-299):
    nil on success or NotExist, otherwise the removal error itself. -/
def finalRemove (fs : FS) (p : Path) : Option Err × FS :=
  match removeAny fs p with
  | (none, fs1) => (none, fs1)
  | (some e, fs1) => if e = Err.notExist then (none, fs1) else (some e, fs1)

/-- Control outcome of one pass of the inner retry loop. -/
inductive InnerCtl where
  | stuck                                          -- fuel ran out inside the pass
  | finish (r : Option Err × FS)                   -- return from RemoveAllRecursive
  | toOuter (fs : FS)                              -- break: re-list the directory
  | again (fs : FS) (names : List String) (err : Option Err)  -- next retry pass

mutual

/-- RemoveAllRecursive (ftp.go:214):
    empty path is a silent no-op; then the fast path via RemoveAny, absorbing
    NotExist, returning any error other than the "Directory is not empty"
    classification, and otherwise entering the children-draining loop. -/
def removeAllRec : Nat → FS → Path → Option (Option Err × FS)
  | 0, _, _ => none
  | n+1, fs, path =>
    if path = [] then some (none, fs)
    else
      match removeAny fs path with
      | (none, fs1) => some (none, fs1)
      | (some e, fs1) =>
        if e = Err.notExist then some (none, fs1)
        else if e ≠ Err.notEmpty then some (some e, fs1)
        else dirLoop n fs1 path

/-- The outer `DIR:` loop (ftp.go:237): list the directory, absorbing a
    NotExist listing failure, returning any other listing error verbatim;
    on an empty listing break to the final removal, otherwise run the inner
    retry loop starting from an empty accumulated name list and a nil
    recorded error (both are redeclared at each listing). -/
def dirLoop : Nat → FS → Path → Option (Option Err × FS)
  | 0, _, _ => none
  | n+1, fs, path =>
    match readDirP fs path with
    | (Except.error e, fs1) =>
      if e = DirRaw.noEnt then some (none, fs1) else some (some Err.backend, fs1)
    | (Except.ok infos, fs1) =>
      if infos.length = 0 then some (finalRemove fs1 path)
      else innerLoop n fs1 path infos [] none

/-- Driver of the inner retry loop (ftp.go:251). -/
def innerLoop : Nat → FS → Path → List String → List String → Option Err →
    Option (Option Err × FS)
  | 0, _, _, _, _, _ => none
  | n+1, fs, path, infos, acc, err =>
    match innerBody n fs path infos acc err with
    | InnerCtl.stuck => none
    | InnerCtl.finish r => some r
    | InnerCtl.toOuter fs1 => dirLoop n fs1 path
    | InnerCtl.again fs1 names err' => innerLoop n fs1 path infos names err'

/-- One pass of the inner retry loop (ftp.go:251-291).  The Go closure
    `names := func() []string { ... }()` appends the snapshot's names to the
    loop-outer `names` slice it captures, so each pass extends the
    accumulated list by the snapshot: `names = acc ++ infos`.  After the
    removals over `names`, the pass breaks to a fresh listing iff
    `numErr ≠ entities`; the two later length tests mirror ftp.go:279-290. -/
def innerBody : Nat → FS → Path → List String → List String → Option Err → InnerCtl
  | 0, _, _, _, _, _ => InnerCtl.stuck
  | m+1, fs, path, infos, acc, err =>
    let names := acc ++ infos
    if names.length = 0 then InnerCtl.finish (finalRemove fs path)
    else
      match removePass m fs path names err 0 with
      | none => InnerCtl.stuck
      | some (err', numErr, fs1) =>
        if numErr ≠ infos.length then InnerCtl.toOuter fs1
        else if names.length = 0 then InnerCtl.toOuter fs1
        else if names.length < infos.length then
          match removeAny fs1 path with
          | (none, fs2) => InnerCtl.finish (none, fs2)
          | (some e, fs2) =>
            if e = Err.notExist then InnerCtl.finish (none, fs2)
            else
              match err' with
              | some e0 => InnerCtl.finish (some e0, fs2)
              | none => InnerCtl.again fs2 names err'
        else InnerCtl.again fs1 names err'

/-- The removal sweep over the current `names` list (ftp.go:264-272):
    recursively remove each `path ++ [name]`, recording the first non-nil
    error and counting the failed removals. -/
def removePass : Nat → FS → Path → List String → Option Err → Nat →
    Option (Option Err × Nat × FS)
  | 0, _, _, _, _, _ => none
  | _+1, fs, _, [], err, numErr => some (err, numErr, fs)
  | k+1, fs, path, name :: rest, err, numErr =>
    match removeAllRec k fs (path ++ [name]) with
    | none => none
    | some (err1, fs1) =>
      removePass k fs1 path rest
        (match err with | none => err1 | some e => some e)
        (if err1 = none then numErr else numErr + 1)

end

/-- MkdirAll for the FTP backend (ftp.go:143): fast path via stat, then
    recursive creation of the parent (the `j > 1` scan isolates a non-empty
    parent segment, rendered here as a non-empty `dropLast`), then a single
    MakeDir with the double-check re-stat on failure. -/
inductive MkErr where
  | notDir            -- os.PathError with syscall.ENOTDIR
  | mkFail (raw : DirRaw)  -- the original MakeDir error, propagated
deriving DecidableEq

def mkdirFinish (fs : FS) (p : Path) : Option MkErr × FS :=
  match makeDirP fs p with
  | (none, fs2) => (none, fs2)
  | (some e, fs2) =>
    match statP fs2 p with
    | (some true, fs3) => (none, fs3)
    | (_, fs3) => (some (MkErr.mkFail e), fs3)

def mkdirAll (fs : FS) (p : Path) : Option MkErr × FS :=
  match statP fs p with
  | (some true, fs1) => (none, fs1)
  | (some false, fs1) => (some MkErr.notDir, fs1)
  | (none, fs1) =>
    if h : p.dropLast = [] then mkdirFinish fs1 p
    else
      match mkdirAll fs1 p.dropLast with
      | (some e, fs2) => (some e, fs2)
      | (none, fs2) => mkdirFinish fs2 p
termination_by p.length
decreasing_by
  have hp : p ≠ [] := by
    intro hnil
    exact h (by simp [hnil])
  simp [List.length_dropLast]
  exact List.length_pos.mpr hp

/-- MakedirAll for the local backend (src/local/local.go:28): only a stat
    failure that is NotExist triggers os.MkdirAll (modelled by the supplied
    `osImpl`); any existing path — directory or plain file — yields nil. -/
def localMakedirAll (osImpl : FS → Path → Option MkErr × FS)
    (fs : FS) (p : Path) : Option MkErr × FS :=
  match statP fs p with
  | (none, fs1) => osImpl fs1 p
  | (some _, fs1) => (none, fs1)

set_option linter.unusedVariables false in
/-- Close for the SFTP backend (src/unnamed/part_001:103): the SFTP close
    result is assigned to `err` and immediately overwritten by the SSH close
    result, which is what gets returned. -/
def sftpProducerClose (closeSFTP closeSSH : Option Err) : Option Err :=
  let err := closeSFTP
  let err := closeSSH
  err

/-- Well-formedness of a node set: no empty path, no duplicate paths, and
    every proper non-empty ancestor of a node is present as a directory. -/
def WFnodes (ns : List (Path × Bool)) : Prop :=
  (ns.map Prod.fst).Nodup ∧
  ∀ e ∈ ns, e.1 ≠ [] ∧ ∀ k, k < e.1.length → 0 < k → (e.1.take k, true) ∈ ns

instance : DecidablePred WFnodes := fun ns => by
  unfold WFnodes; infer_instance

/-- The removal-failure oracles never fire: every single-entry removal that
    is legal at the protocol level succeeds. -/
def failFree (sF sD : Path → Nat → Bool) : Prop :=
  (∀ p n, sF p n = false) ∧ (∀ p n, sD p n = false)

/-- Number of nodes at or below `root`. -/
def countUnder (ns : List (Path × Bool)) (root : Path) : Nat :=
  (ns.filter (fun e => isPre root e.1)).length

/-! ### Path prefix lemmas -/

theorem restOf_eq_some_iff {p q r : Path} : restOf p q = some r ↔ q = p ++ r := by
  induction p generalizing q with
  | nil => simp [restOf]
  | cons a as ih =>
    cases q with
    | nil => simp [restOf]
    | cons b bs =>
      by_cases hab : a = b
      · subst hab
        simp only [restOf, if_pos rfl, List.cons_append, List.cons.injEq, true_and]
        exact ih
      · simp [restOf, Ne.symm hab, hab]

theorem isPre_iff {p q : Path} : isPre p q = true ↔ ∃ r, q = p ++ r := by
  unfold isPre
  rw [Option.isSome_iff_exists]
  constructor
  · rintro ⟨r, hr⟩; exact ⟨r, restOf_eq_some_iff.mp hr⟩
  · rintro ⟨r, hr⟩; exact ⟨r, restOf_eq_some_iff.mpr hr⟩

theorem isPre_refl (p : Path) : isPre p p = true :=
  isPre_iff.mpr ⟨[], by simp⟩

theorem isPre_append (p r : Path) : isPre p (p ++ r) = true :=
  isPre_iff.mpr ⟨r, rfl⟩

theorem isPre_trans {a b c : Path} (h1 : isPre a b = true) (h2 : isPre b c = true) :
    isPre a c = true := by
  obtain ⟨r1, rfl⟩ := isPre_iff.mp h1
  obtain ⟨r2, rfl⟩ := isPre_iff.mp h2
  exact isPre_iff.mpr ⟨r1 ++ r2, by simp⟩

theorem isPre_length {p q : Path} (h : isPre p q = true) : p.length ≤ q.length := by
  obtain ⟨r, rfl⟩ := isPre_iff.mp h
  simp

theorem isPre_eq_of_length {p q : Path} (h : isPre p q = true)
    (hl : q.length ≤ p.length) : p = q := by
  obtain ⟨r, rfl⟩ := isPre_iff.mp h
  have : r = [] := by
    cases r with
    | nil => rfl
    | cons x xs => simp at hl
  simp [this]

theorem isPre_take {p q : Path} (h : isPre p q = true) : p = q.take p.length := by
  obtain ⟨r, rfl⟩ := isPre_iff.mp h
  simp

theorem childName_eq_some {p q : Path} {n : String} :
    childName p q = some n ↔ q = p ++ [n] := by
  unfold childName
  constructor
  · intro h
    cases hro : restOf p q with
    | none => rw [hro] at h; simp at h
    | some r =>
      rw [hro] at h
      match r, h with
      | [m], h =>
        simp only [Option.some.injEq] at h
        subst h
        exact restOf_eq_some_iff.mp hro
  · intro h
    subst h
    rw [show restOf p (p ++ [n]) = some [n] from restOf_eq_some_iff.mpr rfl]

theorem isPre_child_false (p : Path) (n : String) : isPre (p ++ [n]) p = false := by
  by_contra h
  have := isPre_length (by simpa using Bool.of_not_eq_false h)
  simp at this

/-! ### Node lookup and filtering lemmas -/

theorem lookupNode_eq_none_iff {ns : List (Path × Bool)} {p : Path} :
    lookupNode ns p = none ↔ ∀ b, (p, b) ∉ ns := by
  induction ns with
  | nil => simp [lookupNode]
  | cons e rest ih =>
    obtain ⟨q, b⟩ := e
    by_cases hq : q = p
    · subst hq
      simp only [lookupNode, if_pos rfl]
      constructor
      · intro h
        exact absurd h (by simp)
      · intro h
        exact absurd (List.mem_cons_self _ _) (h b)
    · simp only [lookupNode, if_neg hq, ih, List.mem_cons]
      constructor
      · intro h b' hb'
        rcases hb' with h1 | h1
        · exact hq (by injection h1 with h1 _; exact h1.symm) |>.elim
        · exact h b' h1
      · intro h b' hb'
        exact h b' (Or.inr hb')

theorem mem_of_lookupNode {ns : List (Path × Bool)} {p : Path} {b : Bool}
    (h : lookupNode ns p = some b) : (p, b) ∈ ns := by
  induction ns with
  | nil => simp [lookupNode] at h
  | cons e rest ih =>
    obtain ⟨q, b'⟩ := e
    by_cases hq : q = p
    · subst hq
      simp [lookupNode] at h
      subst h
      exact List.mem_cons_self _ _
    · simp only [lookupNode, if_neg hq] at h
      exact List.mem_cons_of_mem _ (ih h)

theorem lookupNode_eq_some_of_mem {ns : List (Path × Bool)} {p : Path} {b : Bool}
    (hnd : (ns.map Prod.fst).Nodup) (h : (p, b) ∈ ns) : lookupNode ns p = some b := by
  induction ns with
  | nil => simp at h
  | cons e rest ih =>
    obtain ⟨q, b'⟩ := e
    simp only [List.map_cons, List.nodup_cons] at hnd
    rcases List.mem_cons.mp h with h1 | h1
    · injection h1 with h1 h2
      subst h1; subst h2
      simp [lookupNode]
    · have hq : q ≠ p := by
        intro hqp
        subst hqp
        exact hnd.1 (List.mem_map.mpr ⟨(q, b), h1, rfl⟩)
      simp only [lookupNode, if_neg hq]
      exact ih hnd.2 h1

theorem lookupNode_isSome_of_mem {ns : List (Path × Bool)} {p : Path} {b : Bool}
    (h : (p, b) ∈ ns) : lookupNode ns p ≠ none := by
  intro hn
  exact lookupNode_eq_none_iff.mp hn b h

/-- Looking up in a list filtered by a predicate on the path alone. -/
theorem lookupNode_filter_key {ns : List (Path × Bool)} {p : Path} (g : Path → Bool) :
    lookupNode (ns.filter (fun e => g e.1)) p =
      if g p then lookupNode ns p else none := by
  induction ns with
  | nil => simp [lookupNode]
  | cons e rest ih =>
    obtain ⟨q, b⟩ := e
    by_cases hgq : g q
    · rw [List.filter_cons_of_pos (by simpa using hgq)]
      by_cases hq : q = p
      · subst hq
        simp [lookupNode, hgq]
      · simp only [lookupNode, if_neg hq]
        exact ih
    · rw [List.filter_cons_of_neg (by simpa using hgq)]
      by_cases hq : q = p
      · subst hq
        simp only [ih]
        simp [hgq]
      · simp only [ih, lookupNode, if_neg hq]

theorem childNamesOf_mem_iff {ns : List (Path × Bool)} {p : Path} {n : String} :
    n ∈ childNamesOf ns p ↔ ∃ b, (p ++ [n], b) ∈ ns := by
  unfold childNamesOf
  rw [List.mem_filterMap]
  constructor
  · rintro ⟨⟨q, b⟩, hmem, hcn⟩
    refine ⟨b, ?_⟩
    have := childName_eq_some.mp hcn
    simpa [← this] using hmem
  · rintro ⟨b, hmem⟩
    exact ⟨(p ++ [n], b), hmem, childName_eq_some.mpr rfl⟩

theorem childNamesOf_eq_nil_iff {ns : List (Path × Bool)} {p : Path} :
    childNamesOf ns p = [] ↔ ∀ n b, (p ++ [n], b) ∉ ns := by
  constructor
  · intro h n b hmem
    have : n ∈ childNamesOf ns p := childNamesOf_mem_iff.mpr ⟨b, hmem⟩
    simp [h] at this
  · intro h
    rw [List.eq_nil_iff_forall_not_mem]
    intro n hn
    obtain ⟨b, hb⟩ := childNamesOf_mem_iff.mp hn
    exact h n b hb

/-! ### Well-formedness lemmas -/

theorem WFnodes_filter (ns : List (Path × Bool)) (c : Path) (hWF : WFnodes ns) :
    WFnodes (eraseUnderList ns c) := by
  obtain ⟨hnd, hanc⟩ := hWF
  constructor
  · exact List.Nodup.sublist (List.Sublist.map Prod.fst (List.filter_sublist ns)) hnd
  · intro e he
    rw [eraseUnderList, List.mem_filter] at he
    obtain ⟨hmem, hkeep⟩ := he
    refine ⟨(hanc e hmem).1, fun k hk hk0 => ?_⟩
    rw [eraseUnderList, List.mem_filter]
    refine ⟨(hanc e hmem).2 k hk hk0, ?_⟩
    simp only [Bool.not_eq_true'] at hkeep ⊢
    by_contra hcp
    have hcp' : isPre c (e.1.take k) = true := by
      cases h' : isPre c (e.1.take k) with
      | true => rfl
      | false => simp [h'] at hcp
    have : isPre c e.1 = true :=
      isPre_trans hcp' (isPre_iff.mpr ⟨e.1.drop k, by simp⟩)
    rw [this] at hkeep
    exact absurd hkeep (by simp)

/-- In a well-formed node set, if `root` is absent then nothing lies at or
    below `root` (every proper ancestor of a node must itself be present). -/
theorem no_under_of_absent {ns : List (Path × Bool)} {root : Path}
    (hWF : WFnodes ns) (hroot : root ≠ [])
    (habs : lookupNode ns root = none) :
    ∀ e ∈ ns, isPre root e.1 = false := by
  rintro ⟨q, b⟩ he
  by_contra h
  have hpre : isPre root q = true := by
    cases h' : isPre root q with
    | true => rfl
    | false => simp only at h; simp [h'] at h
  by_cases heq : root = q
  · subst heq
    exact lookupNode_isSome_of_mem he habs
  · have hlt : root.length < q.length := by
      rcases Nat.lt_or_ge root.length q.length with h1 | h1
      · exact h1
      · exact absurd (isPre_eq_of_length hpre h1) heq
    have h0 : 0 < root.length := List.length_pos.mpr hroot
    have htake : root = q.take root.length := isPre_take hpre
    have hmem : (q.take root.length, true) ∈ ns :=
      ((hWF.2 (q, b) he).2) root.length hlt h0
    rw [← htake] at hmem
    exact lookupNode_isSome_of_mem hmem habs

/-- In a well-formed node set, a plain file has no strict descendants. -/
theorem no_strict_under_file {ns : List (Path × Bool)} {p : Path}
    (hWF : WFnodes ns) (hfile : (p, false) ∈ ns) :
    ∀ e ∈ ns, isPre p e.1 = true → e.1 = p := by
  intro e he hpre
  by_contra heq
  have hlt : p.length < e.1.length := by
    rcases Nat.lt_or_ge p.length e.1.length with h1 | h1
    · exact h1
    · exact absurd (isPre_eq_of_length hpre h1).symm heq
  have h0 : 0 < p.length := List.length_pos.mpr (hWF.2 (p, false) hfile).1
  have htake : p = e.1.take p.length := isPre_take hpre
  have hmem : (e.1.take p.length, true) ∈ ns := (hWF.2 e he).2 p.length hlt h0
  rw [← htake] at hmem
  have h1 := lookupNode_eq_some_of_mem hWF.1 hmem
  have h2 := lookupNode_eq_some_of_mem hWF.1 hfile
  rw [h1] at h2
  simp at h2

/-- In a well-formed node set, a directory with no immediate children has no
    strict descendants at all. -/
theorem no_strict_under_childless {ns : List (Path × Bool)} {p : Path}
    (hWF : WFnodes ns) (hnil : childNamesOf ns p = []) :
    ∀ e ∈ ns, isPre p e.1 = true → e.1 = p := by
  intro e he hpre
  by_contra heq
  obtain ⟨r, hr⟩ := isPre_iff.mp hpre
  have hrne : r ≠ [] := by
    intro h0
    exact heq (by simp [hr, h0])
  obtain ⟨n, r', rfl⟩ := List.exists_cons_of_ne_nil hrne
  have hkey : ∀ b, (p ++ [n], b) ∉ ns := fun b => childNamesOf_eq_nil_iff.mp hnil n b
  by_cases hr' : r' = []
  · subst hr'
    have : e.1 = p ++ [n] := by simpa using hr
    obtain ⟨q, b⟩ := e
    simp only at this
    subst this
    exact hkey b he
  · -- e.1 is a strict descendant deeper than one level:
    -- its ancestor at depth p.length + 1 is p ++ [n] and must be a directory in ns
    have hlen : p.length + 1 < e.1.length := by
      rw [hr]
      simp only [List.length_append, List.length_cons]
      have := List.length_pos.mpr hr'
      omega
    have htake : e.1.take (p.length + 1) = p ++ [n] := by
      rw [hr, show p ++ n :: r' = (p ++ [n]) ++ r' by simp]
      rw [List.take_append_of_le_length (by simp)]
      simp
    have hmem : (e.1.take (p.length + 1), true) ∈ ns :=
      (hWF.2 e he).2 (p.length + 1) hlen (by omega)
    rw [htake] at hmem
    exact hkey true hmem

theorem lookupNode_append_none {l1 l2 : List (Path × Bool)} {p : Path}
    (h : lookupNode l1 p = none) : lookupNode (l1 ++ l2) p = lookupNode l2 p := by
  induction l1 with
  | nil => simp
  | cons e rest ih =>
    obtain ⟨q, b⟩ := e
    by_cases hq : q = p
    · subst hq
      simp [lookupNode] at h
    · simp only [lookupNode, if_neg hq] at h ⊢
      exact ih h

theorem lookupNode_append_some {l1 l2 : List (Path × Bool)} {p : Path} {b : Bool}
    (h : lookupNode l1 p = some b) : lookupNode (l1 ++ l2) p = some b := by
  induction l1 with
  | nil => simp [lookupNode] at h
  | cons e rest ih =>
    obtain ⟨q, b'⟩ := e
    by_cases hq : q = p
    · subst hq
      simp [lookupNode] at h ⊢
      exact h
    · simp only [lookupNode, if_neg hq] at h ⊢
      exact ih h

/-! ### Concrete backend states used as witness inputs -/

/-- A two-node tree: the directory r containing the plain file r/a, with no
    oracle-induced failures. -/
def fsPlain : FS :=
  { nodes := [(["r"], true), (["r", "a"], false)],
    failSpec := fun _ _ => false, dirFailSpec := fun _ _ => false,
    triedF := fun _ => 0, triedD := fun _ => 0, log := [] }

/-- A single plain file f at top level, with no oracle-induced failures. -/
def fsFile : FS :=
  { nodes := [(["f"], false)],
    failSpec := fun _ _ => false, dirFailSpec := fun _ _ => false,
    triedF := fun _ => 0, triedD := fun _ => 0, log := [] }

/-- An empty backend, with no oracle-induced failures. -/
def fsEmpty : FS :=
  { nodes := [],
    failSpec := fun _ _ => false, dirFailSpec := fun _ _ => false,
    triedF := fun _ => 0, triedD := fun _ => 0, log := [] }

/-! ### C9: removeAll on the empty path -/

/-- C9: `removeAll("")` always returns nil and performs no backend calls:
    the empty-path guard (ftp.go:216) returns before any primitive runs, so
    the backend state — including the invocation log — is returned untouched. -/
theorem c9_empty_path_noop (fuel : Nat) (fs : FS) :
    removeAllRec (fuel + 1) fs [] = some (none, fs) := by
  simp [removeAllRec]

/-! ### C10: SFTP Close discards the SFTP-client close error -/

/-- C10: the SFTP backend's Close always returns the SSH-client close result;
    in particular an SFTP-session close error is silently discarded whenever
    the SSH client closes cleanly. -/
theorem c10_close_returns_ssh_result :
    (∀ a b : Option Err, sftpProducerClose a b = b) ∧
    (∀ e : Err, sftpProducerClose (some e) none = none) :=
  ⟨fun _ _ => rfl, fun _ => rfl⟩

/-! ### C6: error classification of RemoveAny -/

/-- C6: RemoveAny (ftp.go:191) classifies its failures: a stat failure yields
    the NotExist-class error; for a directory, a failed removeEmptyDirectory
    yields the Permission-class error tagged "Directory is not empty"; for a
    file, a failed removeFile yields the Invalid-class error; and the result
    is nil exactly when the respective single-entry removal succeeds. -/
theorem c6_removeAny_classification (fs : FS) (p : Path) :
    (lookupNode fs.nodes p = none → (removeAny fs p).1 = some Err.notExist) ∧
    (lookupNode fs.nodes p = some true →
      (((removeAny fs p).1 = none ↔ (deleteDirP (pushLog fs (Op.stat p)) p).1 = none) ∧
       ((deleteDirP (pushLog fs (Op.stat p)) p).1 ≠ none →
         (removeAny fs p).1 = some Err.notEmpty))) ∧
    (lookupNode fs.nodes p = some false →
      (((removeAny fs p).1 = none ↔ (deleteFileP (pushLog fs (Op.stat p)) p).1 = none) ∧
       ((deleteFileP (pushLog fs (Op.stat p)) p).1 ≠ none →
         (removeAny fs p).1 = some Err.invalid))) := by
  refine ⟨fun hl => ?_, fun hl => ?_, fun hl => ?_⟩
  · simp [removeAny, statP, hl]
  · cases hd : deleteDirP (pushLog fs (Op.stat p)) p with
    | mk r fs2 =>
      cases r with
      | none => simp [removeAny, statP, hl, hd]
      | some e => simp [removeAny, statP, hl, hd]
  · cases hd : deleteFileP (pushLog fs (Op.stat p)) p with
    | mk r fs2 =>
      cases r with
      | none => simp [removeAny, statP, hl, hd]
      | some e => simp [removeAny, statP, hl, hd]

/-- Witness for C6 at a concrete input: stat fails on an empty backend. -/
theorem c6_witness : (removeAny fsEmpty ["x"]).1 = some Err.notExist :=
  (c6_removeAny_classification fsEmpty ["x"]).1 rfl

/-! ### C7: makeDirectoryAll on an existing plain file -/

/-- C7 counterexample: the claim asserts that for every backend,
    makeDirectoryAll on a path that exists as a plain file returns a
    "not a directory" error; but the local backend (local.go:28) only calls
    os.MkdirAll when stat fails with NotExist and otherwise returns nil, so
    on an existing plain file it returns nil, not an error. -/
theorem c7_counterexample :
    lookupNode fsFile.nodes ["f"] = some false ∧
    (localMakedirAll (fun fs _ => (none, fs)) fsFile ["f"]).1 = none :=
  ⟨rfl, rfl⟩

/-- C7 amended: on a path that exists as a plain file, the FTP
    makeDirectoryAll (ftp.go:146) returns the "not a directory" error and the
    local one (local.go:28) returns nil; neither mutates the backend — the
    only primitive invoked is the initial stat. -/
theorem c7_amended (fs : FS) (p : Path) (osImpl : FS → Path → Option MkErr × FS)
    (h : lookupNode fs.nodes p = some false) :
    mkdirAll fs p = (some MkErr.notDir, pushLog fs (Op.stat p)) ∧
    localMakedirAll osImpl fs p = (none, pushLog fs (Op.stat p)) := by
  constructor
  · rw [mkdirAll]
    simp [statP, h]
  · simp [localMakedirAll, statP, h]

/-- Witness for C7 amended at the concrete one-file backend. -/
theorem c7_amended_witness :
    mkdirAll fsFile ["f"] = (some MkErr.notDir, pushLog fsFile (Op.stat ["f"])) ∧
    localMakedirAll (fun fs _ => (none, fs)) fsFile ["f"] =
      (none, pushLog fsFile (Op.stat ["f"])) :=
  c7_amended fsFile ["f"] (fun fs _ => (none, fs)) rfl

/-! ### C8: makeDirectoryAll creates ancestors first and is idempotent -/

/-- Creating a single missing top-level directory. -/
theorem mkdirAll_one (g : FS) (a : String)
    (h : lookupNode g.nodes [a] = none) :
    mkdirAll g [a] =
      (none, { g with nodes := g.nodes ++ [([a], true)],
                      log := g.log ++ [Op.stat [a], Op.makeDir [a]] }) := by
  rw [mkdirAll]
  simp [statP, h, mkdirFinish, makeDirP, pushLog]

/-- C8: on a backend where no component of a/b/c exists, makeDirectoryAll
    (ftp.go:143) creates a, then a/b, then a/b/c — the makeOneDirectory calls
    appear in the log in exactly that parent-before-child order — and an
    immediately repeated call performs only a stat and returns nil. -/
theorem c8_mkdirAll_order (fs : FS) (a b c : String)
    (h1 : lookupNode fs.nodes [a] = none)
    (h2 : lookupNode fs.nodes [a, b] = none)
    (h3 : lookupNode fs.nodes [a, b, c] = none) :
    ∃ fs', mkdirAll fs [a, b, c] = (none, fs') ∧
      fs'.nodes = fs.nodes ++ [([a], true), ([a, b], true), ([a, b, c], true)] ∧
      fs'.log = fs.log ++ [Op.stat [a, b, c], Op.stat [a, b], Op.stat [a],
                           Op.makeDir [a], Op.makeDir [a, b], Op.makeDir [a, b, c]] ∧
      ∃ fs'', mkdirAll fs' [a, b, c] = (none, fs'') ∧
        fs''.nodes = fs'.nodes ∧ fs''.log = fs'.log ++ [Op.stat [a, b, c]] := by
  have eA : ∀ g : FS, g.nodes = fs.nodes →
      mkdirAll g [a] = (none, { g with nodes := fs.nodes ++ [([a], true)],
                                       log := g.log ++ [Op.stat [a], Op.makeDir [a]] }) := by
    intro g hg
    rw [mkdirAll_one g a (by rw [hg]; exact h1), hg]
  have eB : ∀ g : FS, g.nodes = fs.nodes →
      mkdirAll g [a, b] = (none, { g with
        nodes := fs.nodes ++ [([a], true), ([a, b], true)],
        log := g.log ++ [Op.stat [a, b], Op.stat [a],
                         Op.makeDir [a], Op.makeDir [a, b]] }) := by
    intro g hg
    rw [mkdirAll]
    have hstat : lookupNode g.nodes [a, b] = none := by rw [hg]; exact h2
    simp only [statP, hstat, pushLog]
    have hdrop : (([a, b] : Path)).dropLast = [a] := rfl
    rw [dif_neg (by rw [hdrop]; exact List.cons_ne_nil a [])]
    rw [hdrop, eA _ (by simp [hg])]
    have hlk1 : lookupNode (fs.nodes ++ [([a], true)]) [a, b] = none := by
      rw [lookupNode_append_none h2]
      simp [lookupNode]
    have hlk2 : lookupNode (fs.nodes ++ [([a], true)]) [a] = some true := by
      rw [lookupNode_append_none h1]
      simp [lookupNode]
    simp only [mkdirFinish, makeDirP, pushLog, hlk1, hlk2]
    simp [hlk1, hlk2, List.append_assoc]
  have eC : ∀ g : FS, g.nodes = fs.nodes →
      mkdirAll g [a, b, c] = (none, { g with
        nodes := fs.nodes ++ [([a], true), ([a, b], true), ([a, b, c], true)],
        log := g.log ++ [Op.stat [a, b, c], Op.stat [a, b], Op.stat [a],
                         Op.makeDir [a], Op.makeDir [a, b], Op.makeDir [a, b, c]] }) := by
    intro g hg
    rw [mkdirAll]
    have hstat : lookupNode g.nodes [a, b, c] = none := by rw [hg]; exact h3
    simp only [statP, hstat, pushLog]
    have hdrop : (([a, b, c] : Path)).dropLast = [a, b] := rfl
    rw [dif_neg (by rw [hdrop]; exact List.cons_ne_nil a [b])]
    rw [hdrop, eB _ (by simp [hg])]
    have hlk1 : lookupNode (fs.nodes ++ [([a], true), ([a, b], true)]) [a, b, c] = none := by
      rw [lookupNode_append_none h3]
      simp [lookupNode]
    have hlk2 : lookupNode (fs.nodes ++ [([a], true), ([a, b], true)]) [a, b] = some true := by
      rw [lookupNode_append_none h2]
      simp [lookupNode]
    simp only [mkdirFinish, makeDirP, pushLog, hlk1, hlk2]
    simp [hlk1, hlk2, List.append_assoc]
  refine ⟨_, eC fs rfl, rfl, rfl, ?_⟩
  have hlk3 : lookupNode
      (fs.nodes ++ [([a], true), ([a, b], true), ([a, b, c], true)]) [a, b, c] = some true := by
    rw [lookupNode_append_none h3]
    simp [lookupNode]
  rw [mkdirAll]
  simp only [statP, pushLog]
  simp only [hlk3]
  exact ⟨_, rfl, rfl, rfl⟩

/-! ### C2: break condition of the inner retry loop -/

/-- A directory r with two files: r/a fails its first removal attempt only
    (a transient failure), r/b fails every attempt. -/
def fsRetry : FS :=
  { nodes := [(["r"], true), (["r", "a"], false), (["r", "b"], false)],
    failSpec := fun p n => (p == ["r", "a"] && n == 0) || p == ["r", "b"],
    dirFailSpec := fun _ _ => false,
    triedF := fun _ => 0, triedD := fun _ => 0, log := [] }

/-- C2 counterexample: in the children-draining loop, a retry pass in which a
    child IS removed successfully need not break to a fresh listing.  After a
    first pass over the snapshot ["a","b"] in which both children fail, the
    loop retries with the accumulated name list ["a","b"] (so the second pass
    attempts a, b, a, b).  In that second pass the removal of child a
    succeeds — a is present before the pass and gone after it — yet the pass
    counts numErr = 2 failed attempts, which equals the snapshot's entity
    count 2, so the loop takes the `again` continuation (a further retry)
    instead of breaking out to re-list. -/
theorem c2_counterexample :
    ∃ fsA0 fsA fsB fsC e1 names2 e2,
      removeAny fsRetry ["r"] = (some Err.notEmpty, fsA0) ∧
      readDirP fsA0 ["r"] = (Except.ok ["a", "b"], fsA) ∧
      innerBody 9 fsA ["r"] ["a", "b"] [] none = InnerCtl.again fsB ["a", "b"] e1 ∧
      lookupNode fsB.nodes ["r", "a"] = some false ∧
      innerBody 8 fsB ["r"] ["a", "b"] ["a", "b"] e1 = InnerCtl.again fsC names2 e2 ∧
      lookupNode fsC.nodes ["r", "a"] = none :=
  ⟨_, _, _, _, _, _, _, rfl, rfl, rfl, rfl, rfl, rfl⟩

/-- C2 amended: the inner retry loop breaks out to a fresh listing iff the
    number of failed removal attempts over the accumulated name list differs
    from the snapshot's entity count (ftp.go:275).  Because the accumulated
    list is re-extended by the snapshot's names on every pass, this
    coincides with "at least one child succeeded" on the first pass only; a
    later pass whose failure count happens to equal the entity count retries
    — with the same accumulated names — even if some child was removed. -/
theorem c2_amended (n : Nat) (fs : FS) (path : Path) (infos acc : List String)
    (err errOut : Option Err) (nE : Nat) (fsOut : FS)
    (hinfos : infos ≠ [])
    (hpass : removePass n fs path (acc ++ infos) err 0 = some (errOut, nE, fsOut)) :
    (nE ≠ infos.length →
       innerLoop (n + 2) fs path infos acc err = dirLoop (n + 1) fsOut path) ∧
    (nE = infos.length →
       innerLoop (n + 2) fs path infos acc err =
         innerLoop (n + 1) fsOut path infos (acc ++ infos) errOut) := by
  have hne : (acc ++ infos).length ≠ 0 := by
    simp only [List.length_append]
    have := List.length_pos.mpr hinfos
    omega
  have hnlt : ¬((acc ++ infos).length < infos.length) := by
    simp only [List.length_append]
    omega
  constructor
  · intro hbr
    simp only [innerLoop, innerBody, if_neg hne, hpass, if_pos hbr]
  · intro heq
    simp only [innerLoop, innerBody, if_neg hne, hpass, heq, if_neg hnlt]
    simp

/-- Witness for C2 amended: a clean one-child pass (numErr = 0 ≠ 1) breaks
    out of the inner loop towards a fresh listing. -/
theorem c2_amended_witness :
    ∃ errOut nE fsOut,
      removePass 2 fsPlain ["r"] (([] : List String) ++ ["a"]) none 0 =
        some (errOut, nE, fsOut) ∧
      innerLoop 4 fsPlain ["r"] ["a"] [] none = dirLoop 3 fsOut ["r"] :=
  ⟨none, 0, _, rfl,
    (c2_amended 2 fsPlain ["r"] ["a"] [] none none 0 _ (by simp) rfl).1 (by decide)⟩

/-! ### C3: what error does removeAll return -/

/-- A directory r with one file r/x that fails its first removal attempt only,
    while removeEmptyDirectory on r itself always fails (oracle). -/
def fsTransient : FS :=
  { nodes := [(["r"], true), (["r", "x"], false)],
    failSpec := fun p n => p == ["r", "x"] && n == 0,
    dirFailSpec := fun p _ => p == ["r"],
    triedF := fun _ => 0, triedD := fun _ => 0, log := [] }

/-- C3 counterexample: a run in which the first recursive child removal fails
    with the Invalid-class error, the child is removed on a retry, and the
    final removal of the now-empty directory fails with a non-NotExist error:
    removeAll returns the final removal error (the Permission-class
    "Directory is not empty" classification), not the recorded Invalid-class
    first child-removal error that the claim says takes precedence. -/
theorem c3_counterexample :
    (∃ fs2, removeAllRec 5 fsTransient ["r", "x"] = some (some Err.invalid, fs2)) ∧
    (∃ fs1, removeAllRec 20 fsTransient ["r"] = some (some Err.notEmpty, fs1)) ∧
    Err.notEmpty ≠ Err.invalid :=
  ⟨⟨_, rfl⟩, ⟨_, rfl⟩, by decide⟩

/-- C3 amended: within a single listing pass the first non-nil child-removal
    error is recorded and later sibling errors never overwrite it
    (ftp.go:266-268); but the record is reset whenever the directory is
    re-listed (the loop-local `err` is redeclared, ftp.go:238), and when the
    final removal of the directory fails with an error other than NotExist,
    removeAll returns that final removal error itself (ftp.go:294-299) — the
    recorded child-removal error is not consulted there. -/
theorem c3_amended :
    (∀ fuel fs path names e numErr out,
       removePass fuel fs path names (some e) numErr = some out →
       out.1 = some e) ∧
    (∀ n fs path infos fs1,
       readDirP fs path = (Except.ok infos, fs1) → infos.length ≠ 0 →
       dirLoop (n + 1) fs path = innerLoop n fs1 path infos [] none) ∧
    (∀ fs p e fs1, finalRemove fs p = (some e, fs1) →
       e ≠ Err.notExist ∧ removeAny fs p = (some e, fs1)) := by
  refine ⟨?_, ?_, ?_⟩
  · intro fuel
    induction fuel with
    | zero =>
      intro fs path names e numErr out h
      simp [removePass] at h
    | succ k ih =>
      intro fs path names e numErr out h
      cases names with
      | nil =>
        simp only [removePass, Option.some.injEq] at h
        subst h
        rfl
      | cons name rest =>
        simp only [removePass] at h
        cases hr : removeAllRec k fs (path ++ [name]) with
        | none => rw [hr] at h; simp at h
        | some v =>
          obtain ⟨err1, fs1⟩ := v
          rw [hr] at h
          exact ih fs1 path rest e _ out h
  · intro n fs path infos fs1 hrd hlen
    simp only [dirLoop, hrd, if_neg hlen]
  · intro fs p e fs1 h
    unfold finalRemove at h
    cases hra : removeAny fs p with
    | mk r fs2 =>
      cases r with
      | none => rw [hra] at h; simp at h
      | some e' =>
        rw [hra] at h
        by_cases he' : e' = Err.notExist
        · simp [he'] at h
        · simp only [if_neg he'] at h
          injection h with h1 h2
          injection h1 with h1
          subst h1
          subst h2
          exact ⟨he', rfl⟩

/-- Witness for C3 amended: a recorded error survives a pass in which a later
    sibling also fails; a listing pass restarts the record at nil; and a
    failing final removal returns its own error. -/
theorem c3_amended_witness :
    (∃ out, removePass 3 fsEmpty ["r"] ["x"] (some Err.invalid) 0 = some out ∧
       out.1 = some Err.invalid) ∧
    dirLoop 4 fsPlain ["r"] = innerLoop 3 (pushLog fsPlain (Op.readDir ["r"])) ["r"] ["a"] [] none ∧
    (Err.notEmpty ≠ Err.notExist ∧
       removeAny fsTransient ["r"] = (some Err.notEmpty, (finalRemove fsTransient ["r"]).2)) :=
  ⟨⟨_, rfl, c3_amended.1 3 fsEmpty ["r"] ["x"] Err.invalid 0 _ rfl⟩,
   c3_amended.2.1 3 fsPlain ["r"] ["a"] _ rfl (by decide),
   c3_amended.2.2 fsTransient ["r"] Err.notEmpty _ rfl⟩

/-! ### C5: NotExist is absorbed at every layer -/

theorem finalRemove_ne_notExist (fs : FS) (p : Path) :
    (finalRemove fs p).1 ≠ some Err.notExist := by
  unfold finalRemove
  cases hra : removeAny fs p with
  | mk e fs1 =>
    cases e with
    | none => simp
    | some e' =>
      by_cases he : e' = Err.notExist
      · simp [he]
      · simp [he]

/-- No result of the removal machinery carries the NotExist classification:
    the statement is proved simultaneously for all five mutually recursive
    functions by induction on the fuel. -/
theorem noNotExist_aux : ∀ n : Nat,
    (∀ fs p r, removeAllRec n fs p = some r → r.1 ≠ some Err.notExist) ∧
    (∀ fs p r, dirLoop n fs p = some r → r.1 ≠ some Err.notExist) ∧
    (∀ fs p infos acc err r, err ≠ some Err.notExist →
       innerLoop n fs p infos acc err = some r → r.1 ≠ some Err.notExist) ∧
    (∀ fs p infos acc err, err ≠ some Err.notExist →
       (∀ r, innerBody n fs p infos acc err = InnerCtl.finish r →
          r.1 ≠ some Err.notExist) ∧
       (∀ fs1 names err', innerBody n fs p infos acc err = InnerCtl.again fs1 names err' →
          err' ≠ some Err.notExist)) ∧
    (∀ fs p names err k out, err ≠ some Err.notExist →
       removePass n fs p names err k = some out → out.1 ≠ some Err.notExist) := by
  intro n
  induction n with
  | zero =>
    refine ⟨?_, ?_, ?_, ?_, ?_⟩
    · intro fs p r h; simp [removeAllRec] at h
    · intro fs p r h; simp [dirLoop] at h
    · intro fs p infos acc err r _ h; simp [innerLoop] at h
    · intro fs p infos acc err _
      exact ⟨fun r h => by simp [innerBody] at h,
             fun fs1 names err' h => by simp [innerBody] at h⟩
    · intro fs p names err k out _ h; simp [removePass] at h
  | succ n ih =>
    obtain ⟨ihR, ihD, ihL, ihB, ihP⟩ := ih
    refine ⟨?_, ?_, ?_, ?_, ?_⟩
    · -- removeAllRec
      intro fs p r h
      rw [removeAllRec] at h
      by_cases hp : p = []
      · rw [if_pos hp] at h
        injection h with h
        subst h
        simp
      · rw [if_neg hp] at h
        cases hra : removeAny fs p with
        | mk e fs1 =>
          rw [hra] at h
          cases e with
          | none =>
            injection h with h
            subst h
            simp
          | some e =>
            dsimp only at h
            by_cases he : e = Err.notExist
            · rw [if_pos he] at h
              injection h with h
              subst h
              simp
            · rw [if_neg he] at h
              by_cases he2 : e = Err.notEmpty
              · rw [if_neg (by simp [he2])] at h
                exact ihD fs1 p r h
              · rw [if_pos he2] at h
                injection h with h
                subst h
                simpa using he
    · -- dirLoop
      intro fs p r h
      rw [dirLoop] at h
      cases hrd : readDirP fs p with
      | mk res fs1 =>
        rw [hrd] at h
        cases res with
        | error e =>
          dsimp only at h
          by_cases he : e = DirRaw.noEnt
          · rw [if_pos he] at h
            injection h with h
            subst h
            simp
          · rw [if_neg he] at h
            injection h with h
            subst h
            simp
        | ok infos =>
          dsimp only at h
          by_cases hlen : infos.length = 0
          · rw [if_pos hlen] at h
            injection h with h
            subst h
            exact finalRemove_ne_notExist fs1 p
          · rw [if_neg hlen] at h
            exact ihL fs1 p infos [] none r (by simp) h
    · -- innerLoop
      intro fs p infos acc err r herr h
      rw [innerLoop] at h
      cases hib : innerBody n fs p infos acc err with
      | stuck => rw [hib] at h; simp at h
      | finish r' =>
        rw [hib] at h
        injection h with h
        subst h
        exact (ihB fs p infos acc err herr).1 r' hib
      | toOuter fs1 =>
        rw [hib] at h
        exact ihD fs1 p r h
      | again fs1 names err' =>
        rw [hib] at h
        exact ihL fs1 p infos names err' r ((ihB fs p infos acc err herr).2 fs1 names err' hib) h
    · -- innerBody
      intro fs p infos acc err herr
      constructor
      · intro r h
        rw [innerBody] at h
        by_cases hn0 : (acc ++ infos).length = 0
        · rw [if_pos hn0] at h
          injection h with h
          subst h
          exact finalRemove_ne_notExist fs p
        · rw [if_neg hn0] at h
          cases hrp : removePass n fs p (acc ++ infos) err 0 with
          | none => rw [hrp] at h; simp at h
          | some out =>
            obtain ⟨err', numErr, fs1⟩ := out
            rw [hrp] at h
            dsimp only at h
            have herr' : err' ≠ some Err.notExist := ihP fs p (acc ++ infos) err 0 _ herr hrp
            by_cases hne : numErr ≠ infos.length
            · rw [if_pos hne] at h
              simp at h
            · rw [if_neg hne] at h
              rw [if_neg hn0] at h
              by_cases hlt : (acc ++ infos).length < infos.length
              · rw [if_pos hlt] at h
                cases hra : removeAny fs1 p with
                | mk e2 fs2 =>
                  rw [hra] at h
                  cases e2 with
                  | none =>
                    injection h with h
                    subst h
                    simp
                  | some e2 =>
                    dsimp only at h
                    by_cases he2 : e2 = Err.notExist
                    · rw [if_pos he2] at h
                      injection h with h
                      subst h
                      simp
                    · rw [if_neg he2] at h
                      cases err' with
                      | none => simp at h
                      | some e0 =>
                        injection h with h
                        subst h
                        simpa using herr'
              · rw [if_neg hlt] at h
                simp at h
      · intro fs1 names err' h
        rw [innerBody] at h
        by_cases hn0 : (acc ++ infos).length = 0
        · rw [if_pos hn0] at h
          simp at h
        · rw [if_neg hn0] at h
          cases hrp : removePass n fs p (acc ++ infos) err 0 with
          | none => rw [hrp] at h; simp at h
          | some out =>
            obtain ⟨err'', numErr, fs2⟩ := out
            rw [hrp] at h
            dsimp only at h
            have herr'' : err'' ≠ some Err.notExist := ihP fs p (acc ++ infos) err 0 _ herr hrp
            by_cases hne : numErr ≠ infos.length
            · rw [if_pos hne] at h
              simp at h
            · rw [if_neg hne] at h
              rw [if_neg hn0] at h
              by_cases hlt : (acc ++ infos).length < infos.length
              · rw [if_pos hlt] at h
                cases hra : removeAny fs2 p with
                | mk e2 fs3 =>
                  rw [hra] at h
                  cases e2 with
                  | none => simp at h
                  | some e2 =>
                    dsimp only at h
                    by_cases he2 : e2 = Err.notExist
                    · rw [if_pos he2] at h
                      simp at h
                    · rw [if_neg he2] at h
                      cases err'' with
                      | none =>
                        injection h with h1 h2 h3
                        subst h3
                        simp
                      | some e0 => simp at h
              · rw [if_neg hlt] at h
                injection h with h1 h2 h3
                subst h3
                exact herr''
    · -- removePass
      intro fs p names err k out herr h
      cases names with
      | nil =>
        simp only [removePass, Option.some.injEq] at h
        subst h
        exact herr
      | cons name rest =>
        simp only [removePass] at h
        cases hrr : removeAllRec n fs (p ++ [name]) with
        | none => rw [hrr] at h; simp at h
        | some v =>
          obtain ⟨err1, fs1⟩ := v
          rw [hrr] at h
          dsimp only at h
          have herr1 : err1 ≠ some Err.notExist := ihR fs (p ++ [name]) _ hrr
          refine ihP fs1 p rest _ _ _ ?_ h
          cases err with
          | none => exact herr1
          | some e => exact herr

/-- C5: removeAll never surfaces a NotExist condition: whenever the walk
    completes, the returned error is never the NotExist classification; and
    on a path that does not exist (and is non-empty), the call performs only
    the initial stat and returns nil. -/
theorem c5_notExist_absorbed :
    (∀ fuel fs p r, removeAllRec fuel fs p = some r → r.1 ≠ some Err.notExist) ∧
    (∀ fuel fs p, p ≠ [] → lookupNode fs.nodes p = none →
       removeAllRec (fuel + 1) fs p = some (none, pushLog fs (Op.stat p))) := by
  constructor
  · intro fuel
    exact (noNotExist_aux fuel).1
  · intro fuel fs p hp habs
    rw [removeAllRec, if_neg hp]
    simp [removeAny, statP, habs]

/-- Witness for C5 at a concrete input: a non-existent path yields nil. -/
theorem c5_witness :
    ((none : Option Err) ≠ some Err.notExist) ∧
    removeAllRec 1 fsEmpty ["x"] = some (none, pushLog fsEmpty (Op.stat ["x"])) :=
  ⟨c5_notExist_absorbed.1 1 fsEmpty ["x"] _ rfl,
   c5_notExist_absorbed.2 0 fsEmpty ["x"] (by decide) rfl⟩

/-! ### C1: helper lemmas for the clean-tree correctness proof -/

/-- The backend state has the given node set and oracles (tried-counters and
    log are left unconstrained, as they evolve along a run). -/
def specsEq (fs : FS) (ns : List (Path × Bool)) (sF sD : Path → Nat → Bool) : Prop :=
  fs.nodes = ns ∧ fs.failSpec = sF ∧ fs.dirFailSpec = sD

/-- Erase the subtrees of all the listed children of `root`. -/
def eraseKids (ns : List (Path × Bool)) (root : Path) (cs : List String) :
    List (Path × Bool) :=
  cs.foldl (fun acc c => eraseUnderList acc (root ++ [c])) ns

theorem length_filter_lt_of_mem_not {α : Type} {l : List α} {x : α} {p : α → Bool}
    (hx : x ∈ l) (hpx : p x = false) : (l.filter p).length < l.length := by
  induction l with
  | nil => simp at hx
  | cons a rest ih =>
    rcases List.mem_cons.mp hx with h1 | h1
    · subst h1
      rw [List.filter_cons_of_neg (by simp [hpx])]
      have := List.length_filter_le p rest
      simp only [List.length_cons]
      omega
    · by_cases hpa : p a
      · rw [List.filter_cons_of_pos hpa]
        simp only [List.length_cons]
        exact Nat.succ_lt_succ (ih h1)
      · rw [List.filter_cons_of_neg hpa]
        simp only [List.length_cons]
        exact Nat.lt_succ_of_lt (ih h1)

theorem countUnder_le_of_sublist {ns' ns : List (Path × Bool)} {root : Path}
    (h : List.Sublist ns' ns) : countUnder ns' root ≤ countUnder ns root :=
  (h.filter _).length_le

theorem countUnder_child_lt {ns : List (Path × Bool)} {root : Path} {b : Bool}
    (hmem : (root, b) ∈ ns) (c : String) :
    countUnder ns (root ++ [c]) < countUnder ns root := by
  have h1 : List.Sublist (ns.filter (fun e => isPre (root ++ [c]) e.1))
      (ns.filter (fun e => decide (e.1 ≠ root) && isPre root e.1)) := by
    refine List.monotone_filter_right ns (fun a ha => ?_)
    have hpre : isPre root a.1 = true :=
      isPre_trans (isPre_append root [c]) ha
    have hne : a.1 ≠ root := by
      intro heq
      rw [heq] at ha
      rw [isPre_child_false] at ha
      exact absurd ha (by simp)
    simp [hne, hpre]
  have h2 : ns.filter (fun e => decide (e.1 ≠ root) && isPre root e.1) =
      (ns.filter (fun e => isPre root e.1)).filter (fun e => decide (e.1 ≠ root)) :=
    (List.filter_filter _ _).symm
  have hmem2 : (root, b) ∈ ns.filter (fun e => isPre root e.1) :=
    List.mem_filter.mpr ⟨hmem, isPre_refl root⟩
  have h3 : ((ns.filter (fun e => isPre root e.1)).filter
        (fun e => decide (e.1 ≠ root))).length <
      (ns.filter (fun e => isPre root e.1)).length :=
    length_filter_lt_of_mem_not hmem2 (by simp)
  calc countUnder ns (root ++ [c]) ≤ _ := h1.length_le
    _ < countUnder ns root := by rw [h2]; exact h3

theorem countUnder_pos_of_mem {ns : List (Path × Bool)} {root : Path} {b : Bool}
    (hmem : (root, b) ∈ ns) : 0 < countUnder ns root := by
  have : (root, b) ∈ ns.filter (fun e => isPre root e.1) :=
    List.mem_filter.mpr ⟨hmem, isPre_refl root⟩
  exact List.length_pos.mpr (List.ne_nil_of_mem this)

theorem eraseUnder_of_absent {ns : List (Path × Bool)} {root : Path}
    (hWF : WFnodes ns) (hroot : root ≠ [])
    (habs : lookupNode ns root = none) : eraseUnderList ns root = ns := by
  refine List.filter_eq_self.mpr (fun e he => ?_)
  rw [no_under_of_absent hWF hroot habs e he]
  rfl

theorem eraseUnder_of_file {ns : List (Path × Bool)} {root : Path}
    (hWF : WFnodes ns) (hfile : (root, false) ∈ ns) :
    eraseUnderList ns root = eraseNodeList ns root := by
  refine List.filter_congr (fun e he => ?_)
  by_cases heq : e.1 = root
  · rw [heq, isPre_refl]
    simp [heq]
  · have : isPre root e.1 = false := by
      cases h' : isPre root e.1 with
      | false => rfl
      | true => exact absurd (no_strict_under_file hWF hfile e he h') heq
    rw [this]
    simp [heq]

theorem eraseUnder_of_childless {ns : List (Path × Bool)} {root : Path}
    (hWF : WFnodes ns) (hnil : childNamesOf ns root = []) :
    eraseUnderList ns root = eraseNodeList ns root := by
  refine List.filter_congr (fun e he => ?_)
  by_cases heq : e.1 = root
  · rw [heq, isPre_refl]
    simp [heq]
  · have : isPre root e.1 = false := by
      cases h' : isPre root e.1 with
      | false => rfl
      | true => exact absurd (no_strict_under_childless hWF hnil e he h') heq
    rw [this]
    simp [heq]

theorem eraseKids_as_filter (cs : List String) :
    ∀ (ns : List (Path × Bool)) (root : Path),
    eraseKids ns root cs =
      ns.filter (fun e => cs.all (fun c => !(isPre (root ++ [c]) e.1))) := by
  induction cs with
  | nil =>
    intro ns root
    simp only [eraseKids, List.foldl_nil, List.all_nil]
    exact (List.filter_eq_self.mpr (fun _ _ => rfl)).symm
  | cons c cs ih =>
    intro ns root
    show eraseKids (eraseUnderList ns (root ++ [c])) root cs = _
    rw [ih, eraseUnderList, List.filter_filter]
    refine List.filter_congr (fun e _ => ?_)
    rw [List.all_cons, Bool.and_comm]

theorem mem_eraseKids {ns : List (Path × Bool)} {root : Path} {cs : List String}
    {e : Path × Bool} :
    e ∈ eraseKids ns root cs ↔
      e ∈ ns ∧ ∀ c ∈ cs, isPre (root ++ [c]) e.1 = false := by
  rw [eraseKids_as_filter, List.mem_filter, List.all_eq_true]
  simp [Bool.not_eq_true']

theorem WF_eraseKids {root : Path} (cs : List String) :
    ∀ {ns : List (Path × Bool)}, WFnodes ns → WFnodes (eraseKids ns root cs) := by
  induction cs with
  | nil => intro ns h; exact h
  | cons c cs ih =>
    intro ns h
    exact ih (WFnodes_filter ns (root ++ [c]) h)

theorem eraseKids_sublist {root : Path} (cs : List String) :
    ∀ (ns : List (Path × Bool)), List.Sublist (eraseKids ns root cs) ns := by
  intro ns
  rw [eraseKids_as_filter]
  exact List.filter_sublist ns

/-- After erasing all children subtrees, the directory has no children. -/
theorem childNames_after_kids {ns : List (Path × Bool)} {root : Path} :
    childNamesOf (eraseKids ns root (childNamesOf ns root)) root = [] := by
  refine childNamesOf_eq_nil_iff.mpr (fun n b hmem => ?_)
  obtain ⟨hns, hall⟩ := mem_eraseKids.mp hmem
  have hn : n ∈ childNamesOf ns root := childNamesOf_mem_iff.mpr ⟨b, hns⟩
  have := hall n hn
  rw [isPre_refl] at this
  exact absurd this (by simp)

theorem root_mem_eraseKids {ns : List (Path × Bool)} {root : Path} {cs : List String}
    (hmem : (root, true) ∈ ns) : (root, true) ∈ eraseKids ns root cs :=
  mem_eraseKids.mpr ⟨hmem, fun c _ => isPre_child_false root c⟩

/-- Erasing the children subtrees and then the directory node itself removes
    exactly the nodes at or below the directory. -/
theorem erase_root_after_kids {ns : List (Path × Bool)} {root : Path}
    (hWF : WFnodes ns) :
    eraseNodeList (eraseKids ns root (childNamesOf ns root)) root =
      eraseUnderList ns root := by
  rw [eraseKids_as_filter, eraseNodeList, List.filter_filter, eraseUnderList]
  refine List.filter_congr (fun e he => ?_)
  cases hpre : isPre root e.1 with
  | false =>
    have hne : e.1 ≠ root := by
      intro heq
      rw [heq, isPre_refl] at hpre
      exact absurd hpre (by simp)
    have hall : (childNamesOf ns root).all (fun c => !(isPre (root ++ [c]) e.1)) = true := by
      rw [List.all_eq_true]
      intro c _
      have : isPre (root ++ [c]) e.1 = false := by
        cases h' : isPre (root ++ [c]) e.1 with
        | false => rfl
        | true =>
          rw [isPre_trans (isPre_append root [c]) h'] at hpre
          exact absurd hpre (by simp)
      simp [this]
    simp [hne, hall]
  | true =>
    by_cases heq : e.1 = root
    · simp [heq]
    · -- e is a strict descendant: its first-level ancestor is a listed child
      obtain ⟨r, hr⟩ := isPre_iff.mp hpre
      have hrne : r ≠ [] := by
        intro h0
        exact heq (by simp [hr, h0])
      obtain ⟨n, r', rfl⟩ := List.exists_cons_of_ne_nil hrne
      have hn : n ∈ childNamesOf ns root := by
        by_cases hr' : r' = []
        · subst hr'
          obtain ⟨q, b⟩ := e
          simp only at hr
          refine childNamesOf_mem_iff.mpr ⟨b, ?_⟩
          rw [show root ++ [n] = q by simpa using hr.symm]
          exact he
        · have hlen : root.length + 1 < e.1.length := by
            rw [hr]
            simp only [List.length_append, List.length_cons]
            have := List.length_pos.mpr hr'
            omega
          have htake : e.1.take (root.length + 1) = root ++ [n] := by
            rw [hr, show root ++ n :: r' = (root ++ [n]) ++ r' by simp]
            rw [List.take_append_of_le_length (by simp)]
            simp
          have hmem := (hWF.2 e he).2 (root.length + 1) hlen (by omega)
          rw [htake] at hmem
          exact childNamesOf_mem_iff.mpr ⟨true, hmem⟩
      have hfail : (childNamesOf ns root).all
          (fun c => !(isPre (root ++ [c]) e.1)) = false := by
        rw [show ((childNamesOf ns root).all
            (fun c => !(isPre (root ++ [c]) e.1)) = false) ↔
            ¬((childNamesOf ns root).all
              (fun c => !(isPre (root ++ [c]) e.1)) = true) by simp]
        rw [List.all_eq_true]
        intro hall
        have := hall n hn
        rw [hr] at this
        rw [show root ++ n :: r' = (root ++ [n]) ++ r' from by simp] at this
        rw [isPre_append] at this
        exact absurd this (by simp)
      simp [hfail]

/-! #### Primitive computations under a clean backend -/

theorem removeAny_absent {fs : FS} {ns : List (Path × Bool)}
    {sF sD : Path → Nat → Bool} {p : Path}
    (hspec : specsEq fs ns sF sD) (habs : lookupNode ns p = none) :
    removeAny fs p = (some Err.notExist, pushLog fs (Op.stat p)) := by
  obtain ⟨hn, _, _⟩ := hspec
  simp [removeAny, statP, hn, habs]

theorem removeAny_notEmpty {fs : FS} {ns : List (Path × Bool)}
    {sF sD : Path → Nat → Bool} {p : Path}
    (hspec : specsEq fs ns sF sD) (hdir : lookupNode ns p = some true)
    (hch : childNamesOf ns p ≠ []) :
    (removeAny fs p).1 = some Err.notEmpty ∧ specsEq (removeAny fs p).2 ns sF sD := by
  obtain ⟨hn, hf, hd⟩ := hspec
  constructor
  · simp [removeAny, statP, deleteDirP, pushLog, hn, hdir, hch]
  · simp [removeAny, statP, deleteDirP, pushLog, hn, hf, hd, hdir, hch, specsEq]

theorem removeAny_dir_ok {fs : FS} {ns : List (Path × Bool)}
    {sF sD : Path → Nat → Bool} {p : Path}
    (hspec : specsEq fs ns sF sD) (hFF : failFree sF sD)
    (hdir : lookupNode ns p = some true) (hch : childNamesOf ns p = []) :
    (removeAny fs p).1 = none ∧
    specsEq (removeAny fs p).2 (eraseNodeList ns p) sF sD := by
  obtain ⟨hn, hf, hd⟩ := hspec
  constructor
  · simp [removeAny, statP, deleteDirP, pushLog, hn, hd, hdir, hch, hFF.2]
  · simp [removeAny, statP, deleteDirP, pushLog, hn, hf, hd, hdir, hch, hFF.2, specsEq]

theorem removeAny_file_ok {fs : FS} {ns : List (Path × Bool)}
    {sF sD : Path → Nat → Bool} {p : Path}
    (hspec : specsEq fs ns sF sD) (hFF : failFree sF sD)
    (hfile : lookupNode ns p = some false) :
    (removeAny fs p).1 = none ∧
    specsEq (removeAny fs p).2 (eraseNodeList ns p) sF sD := by
  obtain ⟨hn, hf, hd⟩ := hspec
  constructor
  · simp [removeAny, statP, deleteFileP, pushLog, hn, hf, hfile, hFF.1]
  · simp [removeAny, statP, deleteFileP, pushLog, hn, hf, hd, hfile, hFF.1, specsEq]

theorem readDir_dir {fs : FS} {ns : List (Path × Bool)}
    {sF sD : Path → Nat → Bool} {p : Path}
    (hspec : specsEq fs ns sF sD) (hdir : lookupNode ns p = some true) :
    readDirP fs p = (Except.ok (childNamesOf ns p), pushLog fs (Op.readDir p)) ∧
    specsEq (pushLog fs (Op.readDir p)) ns sF sD := by
  obtain ⟨hn, hf, hd⟩ := hspec
  constructor
  · simp [readDirP, pushLog, hn, hdir]
  · simp [pushLog, hn, hf, hd, specsEq]

/-! #### The clean sweep and the main induction -/

/-- A removal sweep over a list of children that all remove cleanly: the
    recorded error and the failure count come back unchanged and exactly the
    children's subtrees disappear.  `hIH` supplies the correctness of the
    recursive removeAll calls on the children. -/
theorem c1_pass (N : Nat) (root : Path) (sF sD : Path → Nat → Bool)
    (hIH : ∀ ns (root' : Path), WFnodes ns → root' ≠ [] →
        countUnder ns root' ≤ N →
        ∃ F, ∀ G, F ≤ G → ∀ fs, specsEq fs ns sF sD →
          ∃ fs', removeAllRec G fs root' = some (none, fs') ∧
            specsEq fs' (eraseUnderList ns root') sF sD) :
    ∀ (cs : List String) (ns : List (Path × Bool)), WFnodes ns →
      (∀ c ∈ cs, countUnder ns (root ++ [c]) ≤ N) →
      ∀ (err : Option Err) (k : Nat),
      ∃ F, ∀ G, F ≤ G → ∀ fs, specsEq fs ns sF sD →
        ∃ fs', removePass G fs root cs err k = some (err, k, fs') ∧
          specsEq fs' (eraseKids ns root cs) sF sD := by
  intro cs
  induction cs with
  | nil =>
    intro ns hWF hbound err k
    refine ⟨1, fun G hG fs hspec => ?_⟩
    obtain ⟨G', rfl⟩ : ∃ G', G = G' + 1 := ⟨G - 1, by omega⟩
    exact ⟨fs, rfl, hspec⟩
  | cons c cs ihcs =>
    intro ns hWF hbound err k
    obtain ⟨F1, hF1⟩ := hIH ns (root ++ [c]) hWF (by simp) (hbound c (by simp))
    have hWF1 : WFnodes (eraseUnderList ns (root ++ [c])) := WFnodes_filter ns _ hWF
    have hbound1 : ∀ c' ∈ cs,
        countUnder (eraseUnderList ns (root ++ [c])) (root ++ [c']) ≤ N :=
      fun c' hc' => le_trans (countUnder_le_of_sublist (List.filter_sublist ns))
        (hbound c' (List.mem_cons_of_mem _ hc'))
    obtain ⟨F2, hF2⟩ := ihcs (eraseUnderList ns (root ++ [c])) hWF1 hbound1 err k
    refine ⟨max F1 F2 + 1, fun G hG fs hspec => ?_⟩
    obtain ⟨G', rfl⟩ : ∃ G', G = G' + 1 := ⟨G - 1, by omega⟩
    obtain ⟨fs1, hrun, hspec1⟩ := hF1 G' (by omega) fs hspec
    obtain ⟨fs', hrest, hspec'⟩ := hF2 G' (by omega) fs1 hspec1
    refine ⟨fs', ?_, hspec'⟩
    simp only [removePass]
    rw [hrun]
    cases err with
    | none => exact hrest
    | some e => exact hrest

theorem c1_absent_case (ns : List (Path × Bool)) (sF sD : Path → Nat → Bool)
    (root : Path) (hWF : WFnodes ns) (hroot : root ≠ [])
    (habs : lookupNode ns root = none) :
    ∃ F, ∀ G, F ≤ G → ∀ fs, specsEq fs ns sF sD →
      ∃ fs', removeAllRec G fs root = some (none, fs') ∧
        specsEq fs' (eraseUnderList ns root) sF sD := by
  refine ⟨1, fun G hG fs hspec => ?_⟩
  obtain ⟨G', rfl⟩ : ∃ G', G = G' + 1 := ⟨G - 1, by omega⟩
  rw [removeAllRec, if_neg hroot]
  rw [removeAny_absent hspec habs]
  dsimp only
  rw [if_pos rfl]
  refine ⟨pushLog fs (Op.stat root), rfl, ?_⟩
  rw [eraseUnder_of_absent hWF hroot habs]
  obtain ⟨hn, hf, hd⟩ := hspec
  exact ⟨hn, hf, hd⟩

theorem c1_file_case (ns : List (Path × Bool)) (sF sD : Path → Nat → Bool)
    (root : Path) (hWF : WFnodes ns) (hFF : failFree sF sD) (hroot : root ≠ [])
    (hfile : lookupNode ns root = some false) :
    ∃ F, ∀ G, F ≤ G → ∀ fs, specsEq fs ns sF sD →
      ∃ fs', removeAllRec G fs root = some (none, fs') ∧
        specsEq fs' (eraseUnderList ns root) sF sD := by
  refine ⟨1, fun G hG fs hspec => ?_⟩
  obtain ⟨G', rfl⟩ : ∃ G', G = G' + 1 := ⟨G - 1, by omega⟩
  rw [removeAllRec, if_neg hroot]
  obtain ⟨h1, h2⟩ := removeAny_file_ok hspec hFF hfile
  cases hra : removeAny fs root with
  | mk e fs1 =>
    rw [hra] at h1 h2
    dsimp only at h1 h2
    subst h1
    refine ⟨fs1, rfl, ?_⟩
    rw [eraseUnder_of_file hWF (mem_of_lookupNode hfile)]
    exact h2

theorem c1_childless_case (ns : List (Path × Bool)) (sF sD : Path → Nat → Bool)
    (root : Path) (hWF : WFnodes ns) (hFF : failFree sF sD) (hroot : root ≠ [])
    (hdir : lookupNode ns root = some true) (hch : childNamesOf ns root = []) :
    ∃ F, ∀ G, F ≤ G → ∀ fs, specsEq fs ns sF sD →
      ∃ fs', removeAllRec G fs root = some (none, fs') ∧
        specsEq fs' (eraseUnderList ns root) sF sD := by
  refine ⟨1, fun G hG fs hspec => ?_⟩
  obtain ⟨G', rfl⟩ : ∃ G', G = G' + 1 := ⟨G - 1, by omega⟩
  rw [removeAllRec, if_neg hroot]
  obtain ⟨h1, h2⟩ := removeAny_dir_ok hspec hFF hdir hch
  cases hra : removeAny fs root with
  | mk e fs1 =>
    rw [hra] at h1 h2
    dsimp only at h1 h2
    subst h1
    refine ⟨fs1, rfl, ?_⟩
    rw [eraseUnder_of_childless hWF hch]
    exact h2

/-- Main correctness statement for removeAll on a clean backend, by strong
    induction on the number of nodes at or below the target path: for every
    state with the given node set and (never-firing) oracles there is enough
    fuel, and any larger fuel works, such that the walk returns nil and
    erases exactly the nodes at or below the path. -/
theorem c1_main : ∀ (N : Nat) (ns : List (Path × Bool)) (sF sD : Path → Nat → Bool)
    (root : Path), WFnodes ns → failFree sF sD → root ≠ [] →
    countUnder ns root ≤ N →
    ∃ F, ∀ G, F ≤ G → ∀ fs, specsEq fs ns sF sD →
      ∃ fs', removeAllRec G fs root = some (none, fs') ∧
        specsEq fs' (eraseUnderList ns root) sF sD := by
  intro N
  induction N with
  | zero =>
    intro ns sF sD root hWF hFF hroot hcount
    have habs : lookupNode ns root = none := by
      cases hl : lookupNode ns root with
      | none => rfl
      | some b =>
        have := countUnder_pos_of_mem (mem_of_lookupNode hl)
        omega
    exact c1_absent_case ns sF sD root hWF hroot habs
  | succ N ihN =>
    intro ns sF sD root hWF hFF hroot hcount
    cases hl : lookupNode ns root with
    | none => exact c1_absent_case ns sF sD root hWF hroot hl
    | some b =>
      cases b with
      | false => exact c1_file_case ns sF sD root hWF hFF hroot hl
      | true =>
        by_cases hch : childNamesOf ns root = []
        · exact c1_childless_case ns sF sD root hWF hFF hroot hl hch
        · -- the children-draining loop
          have hmemroot : (root, true) ∈ ns := mem_of_lookupNode hl
          have hchild_bound : ∀ c ∈ childNamesOf ns root,
              countUnder ns (root ++ [c]) ≤ N := by
            intro c _
            have := countUnder_child_lt hmemroot c
            omega
          obtain ⟨Fp, hFp⟩ := c1_pass N root sF sD
            (fun ns' root' hWF' hroot' hcount' =>
              ihN ns' sF sD root' hWF' hFF hroot' hcount')
            (childNamesOf ns root) ns hWF hchild_bound none 0
          refine ⟨Fp + 4, fun G hG fs hspec => ?_⟩
          obtain ⟨K, rfl⟩ : ∃ K, G = K + 4 := ⟨G - 4, by omega⟩
          have hK : Fp ≤ K := by omega
          -- fast path: RemoveAny reports "Directory is not empty"
          obtain ⟨h1, h2⟩ := removeAny_notEmpty hspec hl hch
          rw [removeAllRec, if_neg hroot]
          cases hra : removeAny fs root with
          | mk e fs1 =>
            rw [hra] at h1 h2
            dsimp only at h1 h2
            subst h1
            dsimp only
            rw [if_neg (by decide), if_neg (by decide)]
            -- first listing
            obtain ⟨hrd, hspec1⟩ := readDir_dir h2 hl
            rw [dirLoop, hrd]
            dsimp only
            rw [if_neg (by simp [hch])]
            -- the single clean pass over the children
            obtain ⟨fs2, hpass, hspec2⟩ :=
              hFp K hK (pushLog fs1 (Op.readDir root)) hspec1
            rw [innerLoop, innerBody]
            simp only [List.nil_append]
            rw [if_neg (by simp [hch]), hpass]
            dsimp only
            rw [if_pos (fun h0 => hch (List.eq_nil_of_length_eq_zero h0.symm))]
            dsimp only
            -- re-listing finds the directory empty
            have hWF2 : WFnodes (eraseKids ns root (childNamesOf ns root)) :=
              WF_eraseKids _ hWF
            have hdir2 : lookupNode (eraseKids ns root (childNamesOf ns root)) root =
                some true :=
              lookupNode_eq_some_of_mem hWF2.1 (root_mem_eraseKids hmemroot)
            obtain ⟨hrd2, hspec3⟩ := readDir_dir hspec2 hdir2
            rw [dirLoop, hrd2]
            dsimp only
            rw [if_pos (by rw [childNames_after_kids]; rfl)]
            -- final removal of the now-empty directory
            obtain ⟨hfin1, hfin2⟩ :=
              removeAny_dir_ok hspec3 hFF hdir2 childNames_after_kids
            unfold finalRemove
            cases hra2 : removeAny (pushLog fs2 (Op.readDir root)) root with
            | mk e2 fs3 =>
              rw [hra2] at hfin1 hfin2
              dsimp only at hfin1 hfin2
              subst hfin1
              dsimp only
              refine ⟨fs3, rfl, ?_⟩
              rw [← erase_root_after_kids hWF]
              exact hfin2

/-- C1: for a well-formed tree in which every entry is removable (the removal
    oracles never fire, so every protocol-legal single-entry removal
    succeeds and primitives otherwise fail only with NotExist-like
    conditions), removeAll(root) terminates — some fuel suffices — returns
    nil, and afterwards no entry at or below root remains in the backend. -/
theorem c1_removeAll_clean_tree (fs : FS) (root : Path)
    (hWF : WFnodes fs.nodes) (hFF : failFree fs.failSpec fs.dirFailSpec)
    (hroot : root ≠ []) :
    ∃ F fs', removeAllRec F fs root = some (none, fs') ∧
      fs'.nodes = eraseUnderList fs.nodes root ∧
      ∀ e ∈ fs'.nodes, isPre root e.1 = false := by
  obtain ⟨F, hF⟩ := c1_main (countUnder fs.nodes root) fs.nodes fs.failSpec
    fs.dirFailSpec root hWF hFF hroot le_rfl
  obtain ⟨fs', h1, hn, _, _⟩ := hF F le_rfl fs ⟨rfl, rfl, rfl⟩
  refine ⟨F, fs', h1, hn, ?_⟩
  intro e he
  rw [hn, eraseUnderList] at he
  have := (List.mem_filter.mp he).2
  simpa using this

/-- Witness for C1 at the concrete two-node tree. -/
theorem c1_witness :
    ∃ F fs', removeAllRec F fsPlain ["r"] = some (none, fs') ∧
      fs'.nodes = eraseUnderList fsPlain.nodes ["r"] ∧
      ∀ e ∈ fs'.nodes, isPre ["r"] e.1 = false :=
  c1_removeAll_clean_tree fsPlain ["r"] (by decide)
    ⟨fun _ _ => rfl, fun _ _ => rfl⟩ (by decide)

/-! ### C4: a permanently unremovable leaf makes removeAll loop forever -/

def c4nodes : List (Path × Bool) := [(["r"], true), (["r", "bad"], false)]

def c4spec : Path → Nat → Bool := fun p _ => p == ["r", "bad"]

/-- States of the one-unremovable-leaf backend: node set and oracles fixed
    (removeFile always fails on r/bad), tried-counters and log arbitrary
    since they evolve along the run. -/
def C4St (fs : FS) : Prop :=
  fs.nodes = c4nodes ∧ fs.failSpec = c4spec ∧ fs.dirFailSpec = fun _ _ => false

theorem c4_removeAny_root {fs : FS} (h : C4St fs) :
    (removeAny fs ["r"]).1 = some Err.notEmpty ∧ C4St (removeAny fs ["r"]).2 := by
  obtain ⟨hn, hf, hd⟩ := h
  have h1 : lookupNode c4nodes ["r"] = some true := rfl
  have h3 : childNamesOf c4nodes ["r"] = ["bad"] := rfl
  constructor
  · simp [removeAny, statP, deleteDirP, pushLog, hn, h1, h3]
  · simp [removeAny, statP, deleteDirP, pushLog, hn, hf, hd, h1, h3, C4St]

theorem c4_removeAny_bad {fs : FS} (h : C4St fs) :
    (removeAny fs ["r", "bad"]).1 = some Err.invalid ∧
    C4St (removeAny fs ["r", "bad"]).2 := by
  obtain ⟨hn, hf, hd⟩ := h
  have h2 : lookupNode c4nodes ["r", "bad"] = some false := rfl
  have h4 : ∀ t, c4spec ["r", "bad"] t = true := fun _ => rfl
  constructor
  · simp [removeAny, statP, deleteFileP, pushLog, hn, hf, h2, h4]
  · simp [removeAny, statP, deleteFileP, pushLog, hn, hf, hd, h2, h4, C4St]

theorem c4_readDir_root {fs : FS} (h : C4St fs) :
    (readDirP fs ["r"]).1 = Except.ok ["bad"] ∧ C4St (readDirP fs ["r"]).2 := by
  obtain ⟨hn, hf, hd⟩ := h
  have h1 : lookupNode c4nodes ["r"] = some true := rfl
  have h3 : childNamesOf c4nodes ["r"] = ["bad"] := rfl
  constructor
  · simp [readDirP, pushLog, hn, h1, h3]
  · simp [readDirP, pushLog, hn, hf, hd, h1, h3, C4St]

/-- Removing the unremovable leaf always returns the Invalid-class error. -/
theorem c4_child (m : Nat) {fs : FS} (h : C4St fs) :
    ∃ fs', C4St fs' ∧
      removeAllRec (m + 1) fs ["r", "bad"] = some (some Err.invalid, fs') := by
  obtain ⟨he1, he2⟩ := c4_removeAny_bad h
  cases hra : removeAny fs ["r", "bad"] with
  | mk e fs1 =>
    rw [hra] at he1 he2
    dsimp only at he1 he2
    subst he1
    refine ⟨fs1, he2, ?_⟩
    rw [removeAllRec, if_neg (by decide), hra]
    dsimp only
    rw [if_neg (by decide), if_pos (by decide)]

def errAfter : Option Err → Option Err
  | none => some Err.invalid
  | some e => some e

/-- A removal sweep over k copies of the leaf name: every attempt fails, so
    either fuel runs out or the sweep reports k more failures. -/
theorem c4_removePass : ∀ k m fs err numErr, C4St fs → 1 ≤ k →
    removePass m fs ["r"] (List.replicate k "bad") err numErr = none ∨
    ∃ fs', C4St fs' ∧
      removePass m fs ["r"] (List.replicate k "bad") err numErr =
        some (errAfter err, numErr + k, fs') := by
  intro k
  induction k with
  | zero => intro m fs err numErr _ hk; omega
  | succ k ihk =>
    intro m fs err numErr h _
    cases m with
    | zero => left; simp [List.replicate_succ, removePass]
    | succ m' =>
      rw [List.replicate_succ]
      cases m' with
      | zero =>
        left
        simp only [removePass]
        rw [show removeAllRec 0 fs (["r"] ++ ["bad"]) = none from rfl]
      | succ m'' =>
        obtain ⟨fs1, hC1, hrr⟩ := c4_child m'' h
        simp only [removePass]
        rw [show (["r"] : Path) ++ ["bad"] = ["r", "bad"] from rfl, hrr]
        dsimp only
        have herr : (match err with | none => some Err.invalid | some e => some e) =
            errAfter err := by cases err <;> rfl
        rw [if_neg (by simp), herr]
        cases k with
        | zero =>
          right
          exact ⟨fs1, hC1, by simp [removePass]⟩
        | succ k' =>
          rcases ihk (m'' + 1) fs1 (errAfter err) (numErr + 1) hC1 (by omega) with hnone | hsome
          · left; exact hnone
          · right
            obtain ⟨fs', hC', heq⟩ := hsome
            refine ⟨fs', hC', ?_⟩
            rw [heq]
            have h1 : errAfter (errAfter err) = errAfter err := by cases err <;> rfl
            rw [h1]
            have h2 : numErr + 1 + (k' + 1) = numErr + (k' + 1 + 1) := by omega
            rw [h2]

/-- The divergence itself, proved simultaneously for the three loop layers by
    induction on the fuel: from any state of the one-unremovable-leaf
    backend, the walk of r never finishes. -/
theorem c4_diverges_aux : ∀ n : Nat,
    (∀ fs, C4St fs → removeAllRec n fs ["r"] = none) ∧
    (∀ fs, C4St fs → dirLoop n fs ["r"] = none) ∧
    (∀ fs k err, C4St fs →
       innerLoop n fs ["r"] ["bad"] (List.replicate k "bad") err = none) := by
  intro n
  induction n with
  | zero =>
    exact ⟨fun fs _ => rfl, fun fs _ => rfl, fun fs k err _ => rfl⟩
  | succ n ih =>
    obtain ⟨ihR, ihD, ihL⟩ := ih
    refine ⟨?_, ?_, ?_⟩
    · intro fs h
      obtain ⟨he1, he2⟩ := c4_removeAny_root h
      cases hra : removeAny fs ["r"] with
      | mk e fs1 =>
        rw [hra] at he1 he2
        dsimp only at he1 he2
        subst he1
        rw [removeAllRec, if_neg (by decide), hra]
        dsimp only
        rw [if_neg (by decide), if_neg (by decide)]
        exact ihD fs1 he2
    · intro fs h
      obtain ⟨he1, he2⟩ := c4_readDir_root h
      cases hrd : readDirP fs ["r"] with
      | mk res fs1 =>
        rw [hrd] at he1 he2
        dsimp only at he1 he2
        subst he1
        rw [dirLoop, hrd]
        dsimp only
        rw [if_neg (by decide)]
        exact ihL fs1 0 none he2
    · intro fs k err h
      rw [innerLoop]
      cases n with
      | zero => rfl
      | succ m =>
        have hnames : List.replicate k "bad" ++ ["bad"] =
            List.replicate (k + 1) "bad" := (List.replicate_succ' k "bad").symm
        rw [innerBody]
        rw [hnames]
        rw [if_neg (by simp)]
        rcases c4_removePass (k + 1) m fs err 0 h (by omega) with hnone | hsome
        · rw [hnone]
        · obtain ⟨fs', hC', heq⟩ := hsome
          rw [heq]
          dsimp only
          by_cases hk : k = 0
          · subst hk
            rw [if_neg (by simp)]
            rw [if_neg (by simp), if_neg (by simp)]
            rw [← hnames]
            simp only [List.replicate_zero, List.nil_append]
            exact ihL fs' 1 (errAfter err) hC'
          · rw [if_pos (by simp; omega)]
            exact ihD fs' hC'

/-- The concrete starting state of the one-unremovable-leaf backend. -/
def fsC4 : FS :=
  { nodes := c4nodes, failSpec := c4spec, dirFailSpec := fun _ _ => false,
    triedF := fun _ => 0, triedD := fun _ => 0, log := [] }

/-- C4 (recorded as a code bug): on a tree whose only leaf r/bad can never be
    removed, removeAll(r) does not terminate — whatever fuel is supplied, the
    walk is still unfinished, because every sweep fails all its attempts, the
    failure count eventually differs from the entity count only through name
    duplication, and the outer loop re-lists the unchanged directory forever.
    The claim (and the code's own documentation) promise termination with a
    non-nil error. -/
theorem c4_divergence (fuel : Nat) : removeAllRec fuel fsC4 ["r"] = none :=
  (c4_diverges_aux fuel).1 fsC4 ⟨rfl, rfl, rfl⟩

/-- Witness for C8 on the empty backend. -/
theorem c8_witness :
    ∃ fs', mkdirAll fsEmpty ["a", "b", "c"] = (none, fs') ∧
      fs'.nodes = fsEmpty.nodes ++ [(["a"], true), (["a", "b"], true), (["a", "b", "c"], true)] ∧
      fs'.log = fsEmpty.log ++ [Op.stat ["a", "b", "c"], Op.stat ["a", "b"], Op.stat ["a"],
                           Op.makeDir ["a"], Op.makeDir ["a", "b"], Op.makeDir ["a", "b", "c"]] ∧
      ∃ fs'', mkdirAll fs' ["a", "b", "c"] = (none, fs'') ∧
        fs''.nodes = fs'.nodes ∧ fs''.log = fs'.log ++ [Op.stat ["a", "b", "c"]] :=
  c8_mkdirAll_order fsEmpty "a" "b" "c" rfl rfl rfl

end FileProducer
